import Mathlib

/-!
The concurrent fetch-and-hash engine of digester (`internal/digest/digest.go`).

A shallow embedding of the Go package `digest`.

* Go strings are Lean `String`s, a Go `error` is the text of its `Error()` method,
  `(string, error)` is `String × Option GoError`.
* `http.Client.Get`, `ioutil.ReadAll` and `md5.Sum` belong to the Go standard
  library: the first two are answers of the environment (`GetResult`,
  `Response.Body`), the third is a parameter `md5Sum` whose result type is the
  16-byte array `[16]byte`.
* `Digester.Run` with its goroutines and channels is a labelled transition system:
  `Run.step` executes one statement of one goroutine, `Run.exec` a whole schedule.
* What the Go runtime can allocate is a parameter `limit` of `Run.init`: beyond it
  `make(chan job, d.parallel)` ends the program.
-/

namespace Digest

/-! ## Data model -/

/-- A Go `error` value, identified with the message its `Error()` method returns.
`HttpError`, `ByteError` and `HashError` are all declared as `error`. -/
abbrev GoError := String

/-- A `time.Duration`: a number of nanoseconds. -/
abbrev Duration := Int

/-- One `byte`. -/
abbrev Byte := Fin 256

/-- The `[16]byte` array returned by `md5.Sum`. -/
abbrev Sum16 := Fin 16 → Byte

/-- The part of `http.Client` the package touches: its `Timeout` field. -/
structure HttpClient where
  Timeout : Duration
  deriving DecidableEq, Repr

/-- Go `type Digester struct { parallel int; client http.Client }`. -/
structure Digester where
  parallel : Int
  client : HttpClient
  deriving DecidableEq, Repr

/-- Go `type job struct { idx int; url string }`. -/
structure job where
  idx : Nat
  url : String
  deriving DecidableEq, Repr

/-- Go `type result struct`, without the two informational timestamps
`started` and `finished`, which no statement of the package reads. -/
structure result where
  idx : Nat
  hash : String
  err : Option GoError
  deriving DecidableEq, Repr

/-- Go `time.Second`, in nanoseconds. -/
def Second : Duration := 1000000000

/-- Go `DefaultTimeout = time.Second * 5`. -/
def DefaultTimeout : Duration := Second * 5

/-- Go `fmt.Sprintf(failedFormat, err)` with `failedFormat = "failed: %s"`. -/
def failedFormat (err : GoError) : String := "failed: " ++ err

/-- Go `http.StatusBadRequest`. -/
def StatusBadRequest : Int := 400

/-- Go `New`. -/
def New (parallel : Int) : Digester :=
  { parallel := parallel, client := { Timeout := DefaultTimeout } }

/-- Go `(*Digester).SetTimeout`. -/
def Digester.SetTimeout (d : Digester) (t : Duration) : Digester :=
  { d with client := { d.client with Timeout := t } }

/-! ## Formatting verbs of `fmt` -/

/-- The digit table `ldigits` of package `fmt`, without its trailing `x`. -/
def ldigits : List Char := "0123456789abcdef".data

/-- One lowercase hexadecimal digit. -/
def hexDigit (n : Nat) : Char := ldigits.getD n '0'

/-- The two hexadecimal digits `%x` prints for one byte, high nibble first. -/
def hexByte (b : Byte) : List Char := [hexDigit (b.val / 16), hexDigit (b.val % 16)]

/-- Go `fmt.Sprintf("%x", sum)` for a `[16]byte`: two lowercase hexadecimal digits
for each byte, no separator. -/
def fmtX (sum : Sum16) : String := String.mk ((List.ofFn sum).flatMap hexByte)

/-- Go `fmt.Sprintf("%d", n)` for an `int`. -/
def fmtD (n : Int) : String := toString n

/-- The value of one lowercase hexadecimal digit, as `encoding/hex` reads it. -/
def hexVal (c : Char) : Option Nat :=
  let i := ldigits.indexOf c
  if i < 16 then some i else none

/-- Reading a lowercase hexadecimal string back into bytes, two digits for each
byte; `none` for an odd length or a character that is no digit. -/
def hexDecode : List Char → Option (List Byte)
  | [] => some []
  | [_] => none
  | hi :: lo :: rest =>
    match hexVal hi, hexVal lo, hexDecode rest with
    | some h, some l, some bs => some (Fin.ofNat (h * 16 + l) :: bs)
    | _, _, _ => none

/-! ## Fetch-and-hash -/

/-- A `*http.Response` as `fetchHash` sees it: the status code, and what
`ioutil.ReadAll(rsp.Body)` gives when it is called. -/
structure Response where
  StatusCode : Int
  Body : Except GoError (List Byte)

/-- The answer of `d.client.Get(url)`: a response or a transport error. -/
abbrev GetResult := Except GoError Response

/-- Go `newHttpError`, applied to the already formatted message. -/
def newHttpError (msg : String) : GoError := msg

/-- Go `newByteError`, applied to the already formatted message. -/
def newByteError (msg : String) : GoError := msg

/-- Go `(*Digester).fetchHash`. `Get` is `d.client.Get` as the network answers it
for this call. -/
def fetchHash (md5Sum : List Byte → Sum16) (Get : String → GetResult) (url : String) :
    String × Option GoError :=
  match Get url with
  | .error err => ("", some err)
  | .ok rsp =>
    if rsp.StatusCode ≥ StatusBadRequest then
      ("", some (newHttpError ("remote returned rsp code " ++ fmtD rsp.StatusCode)))
    else
      match rsp.Body with
      | .error err => ("", some (newByteError ("failed to read response body (" ++ err ++ ")")))
      | .ok body => (fmtX (md5Sum body), none)

/-! ## The output map -/

/-- A Go `map[string]string`, as the list of its entries; `set` keeps every key
at most once. -/
structure GoMap where
  entries : List (String × String)
  deriving DecidableEq, Repr

/-- Go `make(map[string]string)`. -/
def GoMap.empty : GoMap := ⟨[]⟩

/-- The keys of the map. -/
def GoMap.keys (m : GoMap) : List String := m.entries.map Prod.fst

/-- Go `len(m)`. -/
def GoMap.len (m : GoMap) : Nat := m.entries.length

/-- Go `m[k]` with the `ok` flag. -/
def GoMap.get (m : GoMap) (k : String) : Option String := m.entries.lookup k

/-- Assignment to one key in a list of entries. -/
def setEntry (k v : String) : List (String × String) → List (String × String)
  | [] => [(k, v)]
  | e :: es => if e.1 = k then (k, v) :: es else e :: setEntry k v es

/-- Go `m[k] = v`. -/
def GoMap.set (m : GoMap) (k v : String) : GoMap := ⟨setEntry k v m.entries⟩

/-! ## `Digester.Run` as a transition system -/

/-- Where one `worker` goroutine stands. -/
inductive WorkerState
  /-- At `for job := range jobs`, waiting for the next job. -/
  | ranging
  /-- Holding a job, inside `d.fetchHash(job.url)`. -/
  | fetching (j : job)
  /-- Blocked in `results <- result`. -/
  | sending (r : result)
  /-- The `range` loop has ended, the goroutine is gone. -/
  | returned
  deriving DecidableEq, Repr

/-- Where the goroutine that called `Run` stands. -/
inductive Phase
  /-- In `for idx, url := range URLs`, about to send job `n`; with `n = len(URLs)`,
  about to `close(jobs)`. -/
  | feeding (n : Nat)
  /-- In the `for { select { ... } }` loop. -/
  | collecting
  /-- The statement `return output` has been executed. -/
  | returned
  /-- A run-time panic or fatal error has ended the program. -/
  | panicked
  deriving DecidableEq, Repr

/-- The state of one call of `Run`. -/
structure RunState where
  /-- The contents of the buffered channel `jobs`, oldest first. -/
  jobs : List job
  /-- Whether `close(jobs)` has been executed. -/
  closed : Bool
  /-- The `d.parallel` worker goroutines. -/
  workers : List WorkerState
  phase : Phase
  /-- The local variable `output`. -/
  output : GoMap
  /-- History variable, not in the source: the Results taken from the channel
  `results` so far, oldest first. -/
  received : List result
  deriving DecidableEq, Repr

/-- One scheduling decision: which goroutine executes its next statement. -/
inductive Event
  /-- The goroutine of `Run` executes its next statement other than a receive:
  a send `jobs <- job`, `close(jobs)`, or the `default` branch of the `select`. -/
  | main
  /-- The `select` of `Run` takes `case res := <-results` from worker `w`. -/
  | recv (w : Nat)
  /-- Worker `w` takes the next job from `jobs`, or leaves its `range` loop. -/
  | take (w : Nat)
  /-- The call of `fetchHash` in worker `w` completes. -/
  | fetch (w : Nat)
  deriving DecidableEq, Repr

/-- Whether the worker is blocked in `results <- result`. -/
def WorkerState.isSending : WorkerState → Bool
  | .sending _ => true
  | _ => false

/-- The body of `case res := <-results:`; `none` is the index-out-of-range panic
of `URLs[res.idx]`. -/
def merge (URLs : List String) (output : GoMap) (res : result) : Option GoMap :=
  match URLs[res.idx]? with
  | none => none
  | some url =>
    let output := output.set url res.hash
    match res.err with
    | some err => some (output.set url (failedFormat err))
    | none => some output

/-- The loop body of `worker` after a job has been received: the Result it builds. -/
def workerResult (md5Sum : List Byte → Sum16) (Get : String → GetResult) (j : job) : result :=
  let r := fetchHash md5Sum Get j.url
  { idx := j.idx, hash := r.1, err := r.2 }

namespace Run

/-- The state after `make(chan job, d.parallel)`, `make(chan result)` and the
`go d.worker(jobs, results)` loop. `limit` is the largest parallelism the Go runtime at
hand can serve: for `0 ≤ n ≤ limit` the call `make(chan job, n)` and the start of `n`
goroutines succeed; for every other `n` the program ends there, with the panic
`makechan: size out of range` or a fatal out-of-memory error. -/
def init (limit : Nat) (d : Digester) : RunState :=
  if d.parallel < 0 ∨ (limit : Int) < d.parallel then
    { jobs := [], closed := false, workers := [], phase := .panicked,
      output := GoMap.empty, received := [] }
  else
    { jobs := [], closed := false, workers := List.replicate d.parallel.toNat .ranging,
      phase := .feeding 0, output := GoMap.empty, received := [] }

/-- One step of `Run`. `net idx` is `d.client.Get` as the network answers it for
the fetch of job `idx`. The answer `none` means that the event cannot happen in
`s`: the goroutine is blocked, gone, or the program has ended. -/
def step (md5Sum : List Byte → Sum16) (net : Nat → String → GetResult) (d : Digester)
    (URLs : List String) (s : RunState) : Event → Option RunState
  | .main =>
    match s.phase with
    | .feeding n =>
      match URLs[n]? with
      | some url =>
        -- `jobs <- job{idx, url}` blocks while the buffer is full
        if s.jobs.length < d.parallel.toNat then
          some { s with jobs := s.jobs ++ [{ idx := n, url := url }], phase := .feeding (n + 1) }
        else none
      | none =>
        -- `close(jobs)`, `output := make(map[string]string)`
        some { s with closed := true, output := GoMap.empty, phase := .collecting }
    | .collecting =>
      -- `default:` is chosen only when no sender is ready
      if s.workers.any WorkerState.isSending then none
      else if s.output.len = URLs.length then some { s with phase := .returned }
      else some s
    | _ => none
  | .recv w =>
    match s.phase, s.workers[w]? with
    | .collecting, some (.sending r) =>
      match merge URLs s.output r with
      | some out =>
        some { s with workers := s.workers.set w .ranging, output := out,
                      received := s.received ++ [r] }
      | none => some { s with phase := .panicked }
    | _, _ => none
  | .take w =>
    if s.phase = .panicked then none else
    match s.workers[w]? with
    | some .ranging =>
      match s.jobs with
      | j :: rest => some { s with jobs := rest, workers := s.workers.set w (.fetching j) }
      | [] => if s.closed then some { s with workers := s.workers.set w .returned } else none
    | _ => none
  | .fetch w =>
    if s.phase = .panicked then none else
    match s.workers[w]? with
    | some (.fetching j) =>
      some { s with workers := s.workers.set w (.sending (workerResult md5Sum (net j.idx) j)) }
    | _ => none

/-- Running a schedule from `s`; `none` when one of its events cannot happen. -/
def exec (md5Sum : List Byte → Sum16) (net : Nat → String → GetResult) (d : Digester)
    (URLs : List String) (s : RunState) : List Event → Option RunState
  | [] => some s
  | e :: es => (step md5Sum net d URLs s e).bind fun s' => exec md5Sum net d URLs s' es

end Run

/-! ## Notions used to state the properties -/

/-- A bound of `limit` on 64-bit platforms: there `make(chan job, n)` panics as soon as
`n` times the 24 bytes of a `job` exceeds `maxAlloc - hchanSize = 2 ^ 48 - 96`. -/
def limit64 : Nat := (2 ^ 48 - 96) / 24

/-- The value `Run` stores for a Result: its hash, or the formatted error. -/
def render (r : result) : String :=
  match r.err with
  | some err => failedFormat err
  | none => r.hash

/-- The index of the job a worker holds, if it holds one. -/
def WorkerState.held : WorkerState → List Nat
  | .fetching j => [j.idx]
  | .sending r => [r.idx]
  | _ => []

/-- The indices of the jobs held by the workers. -/
def heldIdx (ws : List WorkerState) : List Nat := ws.flatMap WorkerState.held

/-- The number of jobs sent into the channel `jobs` so far, for `k` URLs. -/
def Phase.fed (k : Nat) : Phase → Nat
  | .feeding n => n
  | _ => k

/-- A Result is the outcome of fetching the URL found at its own index. -/
def ResultOk (md5Sum : List Byte → Sum16) (net : Nat → String → GetResult)
    (URLs : List String) (r : result) : Prop :=
  ∃ url, URLs[r.idx]? = some url ∧ r = workerResult md5Sum (net r.idx) ⟨r.idx, url⟩

/-- A worker holds a job of the input, or the Result of one. -/
def WorkerOk (md5Sum : List Byte → Sum16) (net : Nat → String → GetResult)
    (URLs : List String) : WorkerState → Prop
  | .fetching j => URLs[j.idx]? = some j.url
  | .sending r => ResultOk md5Sum net URLs r
  | _ => True

/-- The invariant of `Run` for a non-negative parallelism. -/
structure Inv (md5Sum : List Byte → Sum16) (net : Nat → String → GetResult) (d : Digester)
    (URLs : List String) (s : RunState) : Prop where
  notPanicked : s.phase ≠ .panicked
  nworkers : s.workers.length = d.parallel.toNat
  buffer : s.jobs.length ≤ d.parallel.toNat
  feeding : ∀ n, s.phase = .feeding n →
    n ≤ URLs.length ∧ s.received = [] ∧ n = (heldIdx s.workers).length + s.jobs.length
  account : ∀ i, (s.received.map result.idx).count i + (heldIdx s.workers).count i
      + (s.jobs.map job.idx).count i = if i < s.phase.fed URLs.length then 1 else 0
  jobsOk : ∀ j ∈ s.jobs, URLs[j.idx]? = some j.url
  workersOk : ∀ x ∈ s.workers, WorkerOk md5Sum net URLs x
  receivedOk : ∀ r ∈ s.received, ResultOk md5Sum net URLs r
  keysNodup : s.output.keys.Nodup
  entriesOk : ∀ e ∈ s.output.entries, ∃ r ∈ s.received, URLs[r.idx]? = some e.1 ∧ e.2 = render r
  merged : ∀ r ∈ s.received, ∃ u, URLs[r.idx]? = some u ∧ u ∈ s.output.keys
  returned : s.phase = .returned → s.output.len = URLs.length

/-- How many statements of its own `Run` still has to execute when no URL is given:
`close(jobs)` and the `default` branch that returns. -/
def mainsLeft : Phase → Nat
  | .feeding _ => 2
  | .collecting => 1
  | _ => 0

/-- What holds of every state of `Run` when no URL is given: the channel `jobs` stays
empty, nothing has been received or stored, and no worker holds a job. -/
def Idle (s : RunState) : Prop :=
  s.jobs = [] ∧ s.received = [] ∧ s.output = GoMap.empty ∧
  (∀ x ∈ s.workers, x = .ranging ∨ x = .returned) ∧
  (s.phase = .feeding 0 ∨ s.phase = .collecting ∨ s.phase = .returned)

theorem length_flatMap_hexByte (l : List Byte) : (l.flatMap hexByte).length = 2 * l.length := by
  induction l with
  | nil => rfl
  | cons b t ih => simp [List.flatMap_cons, hexByte, ih]; omega

theorem fmtX_length (sum : Sum16) : (fmtX sum).length = 32 := by
  show ((List.ofFn sum).flatMap hexByte).length = 32
  rw [length_flatMap_hexByte, List.length_ofFn]

theorem hexDigit_mem (n : Nat) (h : n < 16) : hexDigit n ∈ ldigits := by
  interval_cases n <;> decide

theorem hexVal_hexDigit (n : Nat) (h : n < 16) : hexVal (hexDigit n) = some n := by
  interval_cases n <;> decide

theorem fmtX_chars (sum : Sum16) : ∀ c ∈ (fmtX sum).data, c ∈ ldigits := by
  intro c hc
  simp only [fmtX, List.mem_flatMap, hexByte] at hc
  obtain ⟨b, -, hb⟩ := hc
  simp at hb
  rcases hb with rfl | rfl
  · exact hexDigit_mem _ (by omega)
  · exact hexDigit_mem _ (by omega)

theorem hexDecode_flatMap (l : List Byte) : hexDecode (l.flatMap hexByte) = some l := by
  induction l with
  | nil => rfl
  | cons b t ih =>
    have h1 : hexVal (hexDigit (b.val / 16)) = some (b.val / 16) := hexVal_hexDigit _ (by omega)
    have h2 : hexVal (hexDigit (b.val % 16)) = some (b.val % 16) := hexVal_hexDigit _ (by omega)
    have h3 : (Fin.ofNat (b.val / 16 * 16 + b.val % 16) : Byte) = b := by
      apply Fin.ext
      simp [Fin.ofNat]
      omega
    show hexDecode (hexDigit (b.val / 16) :: hexDigit (b.val % 16) :: t.flatMap hexByte) = _
    rw [hexDecode, h1, h2, ih]
    simp [h3]

theorem lookup_setEntry_self (k v : String) (es : List (String × String)) :
    (setEntry k v es).lookup k = some v := by
  induction es with
  | nil => simp [setEntry, List.lookup]
  | cons e t ih =>
    obtain ⟨a, b⟩ := e
    by_cases h : a = k
    · simp [setEntry, h, List.lookup]
    · have : (k == a) = false := by simpa using fun h2 => h h2.symm
      simp [setEntry, h, List.lookup, this, ih]

theorem setEntry_setEntry (k v w : String) (es : List (String × String)) :
    setEntry k v (setEntry k w es) = setEntry k v es := by
  induction es with
  | nil => simp [setEntry]
  | cons e t ih =>
    by_cases h : e.1 = k
    · simp [setEntry, h]
    · simp [setEntry, h, ih]

/-- The body of the receive case writes the rendering of the Result under its URL. -/
theorem merge_eq (URLs : List String) (output : GoMap) (r : result) :
    merge URLs output r = (URLs[r.idx]?).map fun url => output.set url (render r) := by
  unfold merge
  cases hu : URLs[r.idx]? with
  | none => rfl
  | some url =>
    cases he : r.err with
    | none => simp [render, he]
    | some e => simp [render, he, GoMap.set, setEntry_setEntry]

theorem get_set_self (m : GoMap) (k v : String) : (m.set k v).get k = some v :=
  lookup_setEntry_self k v m.entries

theorem readError_ne_statusError (m x : String) :
    "failed to read response body (" ++ m ++ ")" ≠ "remote returned rsp code " ++ x := by
  intro h
  have := congrArg (fun s => s.data.head?) h
  simp [String.data_append] at this

theorem readError_ne_empty (m : String) : "failed to read response body (" ++ m ++ ")" ≠ "" := by
  intro h
  have := congrArg String.length h
  simp [String.length_append] at this
  exact absurd this.2 (by decide)

/-! ### Lists of workers and of entries -/

theorem heldIdx_cons (a : WorkerState) (t : List WorkerState) :
    heldIdx (a :: t) = a.held ++ heldIdx t := rfl

theorem count_heldIdx_set (ws : List WorkerState) (w : Nat) (x y : WorkerState)
    (h : ws[w]? = some x) (i : Nat) :
    (heldIdx (ws.set w y)).count i + x.held.count i = (heldIdx ws).count i + y.held.count i := by
  induction ws generalizing w with
  | nil => simp at h
  | cons a t ih =>
    cases w with
    | zero =>
      simp at h
      subst h
      simp only [List.set_cons_zero, heldIdx_cons, List.count_append]
      omega
    | succ w =>
      simp at h
      have := ih w h
      simp only [List.set_cons_succ, heldIdx_cons, List.count_append]
      omega

theorem length_heldIdx_set (ws : List WorkerState) (w : Nat) (x y : WorkerState)
    (h : ws[w]? = some x) :
    (heldIdx (ws.set w y)).length + x.held.length = (heldIdx ws).length + y.held.length := by
  induction ws generalizing w with
  | nil => simp at h
  | cons a t ih =>
    cases w with
    | zero =>
      simp at h
      subst h
      simp only [List.set_cons_zero, heldIdx_cons, List.length_append]
      omega
    | succ w =>
      simp at h
      have := ih w h
      simp only [List.set_cons_succ, heldIdx_cons, List.length_append]
      omega

theorem length_held_le (x : WorkerState) : x.held.length ≤ 1 := by
  cases x <;> simp [WorkerState.held]

theorem length_heldIdx_le (ws : List WorkerState) : (heldIdx ws).length ≤ ws.length := by
  induction ws with
  | nil => simp [heldIdx]
  | cons a t ih =>
    have := length_held_le a
    simp only [heldIdx_cons, List.length_append, List.length_cons]
    omega

theorem any_isSending_eq_false (ws : List WorkerState) :
    ws.any WorkerState.isSending = false ↔ ∀ r, WorkerState.sending r ∉ ws := by
  constructor
  · intro h r hr
    have := List.any_eq_true.mpr ⟨_, hr, (rfl : (WorkerState.sending r).isSending = true)⟩
    simp [h] at this
  · intro h
    rw [Bool.eq_false_iff]
    intro hany
    obtain ⟨x, hx, hs⟩ := List.any_eq_true.mp hany
    cases x with
    | sending r => exact h r hx
    | ranging => simp [WorkerState.isSending] at hs
    | fetching j => simp [WorkerState.isSending] at hs
    | returned => simp [WorkerState.isSending] at hs

theorem keys_setEntry (k v : String) (es : List (String × String)) :
    (setEntry k v es).map Prod.fst
      = if k ∈ es.map Prod.fst then es.map Prod.fst else es.map Prod.fst ++ [k] := by
  induction es with
  | nil => simp [setEntry]
  | cons e t ih =>
    by_cases h : e.1 = k
    · simp [setEntry, h]
    · have h2 : ¬ k = e.1 := fun h3 => h h3.symm
      by_cases hk : k ∈ t.map Prod.fst
      · simp only [hk, if_true] at ih
        have hk2 : k ∈ (e :: t).map Prod.fst := by
          rw [List.map_cons]
          exact List.mem_cons_of_mem _ hk
        rw [if_pos hk2]
        simp [setEntry, h, ih]
      · simp only [hk, if_false] at ih
        have hk2 : k ∉ (e :: t).map Prod.fst := by
          rw [List.map_cons, List.mem_cons]
          rintro (h3 | h3)
          · exact h2 h3
          · exact hk h3
        rw [if_neg hk2]
        simp [setEntry, h, ih]

theorem mem_setEntry (k v : String) (es : List (String × String)) (e : String × String)
    (h : e ∈ setEntry k v es) : e = (k, v) ∨ e ∈ es := by
  induction es with
  | nil => simpa [setEntry] using h
  | cons a t ih =>
    by_cases ha : a.1 = k
    · simp [setEntry, ha] at h
      rcases h with h | h
      · exact Or.inl h
      · exact Or.inr (List.mem_cons_of_mem _ h)
    · simp [setEntry, ha] at h
      rcases h with h | h
      · exact Or.inr (h ▸ List.mem_cons_self _ _)
      · rcases ih h with h | h
        · exact Or.inl h
        · exact Or.inr (List.mem_cons_of_mem _ h)

theorem lookup_of_mem (es : List (String × String)) (hnd : (es.map Prod.fst).Nodup)
    (k v : String) (h : (k, v) ∈ es) : es.lookup k = some v := by
  induction es with
  | nil => simp at h
  | cons a t ih =>
    obtain ⟨a1, a2⟩ := a
    simp at hnd
    simp at h
    rcases h with ⟨h1, h2⟩ | h
    · subst h1; subst h2
      simp [List.lookup]
    · have hne : (k == a1) = false := by
        simp
        intro hk
        subst hk
        exact hnd.1 _ h
      simp [List.lookup, hne]
      exact ih hnd.2 h

/-! ### The invariant of `Run` -/

theorem heldIdx_replicate_ranging (n : Nat) :
    heldIdx (List.replicate n WorkerState.ranging) = [] := by
  induction n with
  | zero => rfl
  | succ n ih => rw [List.replicate_succ, heldIdx_cons, ih]; rfl

theorem Inv_init (md5Sum : List Byte → Sum16) (net : Nat → String → GetResult) (d : Digester)
    (URLs : List String) (limit : Nat) (hp : 0 ≤ d.parallel) (hl : d.parallel ≤ limit) :
    Inv md5Sum net d URLs (Run.init limit d) := by
  have hp2 : ¬ (d.parallel < 0 ∨ (limit : Int) < d.parallel) := by omega
  simp only [Run.init, hp2, if_false]
  refine ⟨by simp, by simp, by simp, ?_, ?_, by simp, ?_, by simp, by simp [GoMap.empty, GoMap.keys],
    by simp [GoMap.empty], by simp, by simp⟩
  · intro n hn
    simp only [Phase.feeding.injEq] at hn
    subst hn
    simp [heldIdx_replicate_ranging]
  · intro i
    simp [heldIdx_replicate_ranging, Phase.fed]
  · intro x hx
    rw [List.eq_of_mem_replicate hx]
    trivial

theorem Inv_main (md5Sum : List Byte → Sum16) (net : Nat → String → GetResult) (d : Digester)
    (URLs : List String) (s s2 : RunState) (h : Inv md5Sum net d URLs s)
    (hs : Run.step md5Sum net d URLs s .main = some s2) : Inv md5Sum net d URLs s2 := by
  unfold Run.step at hs
  cases hph : s.phase with
  | feeding n =>
    obtain ⟨hn, hrec, hlen⟩ := h.feeding n hph
    have hacc := h.account
    simp only [hph, Phase.fed] at hacc
    simp only [hph] at hs
    cases hu : URLs[n]? with
    | some url =>
      simp only [hu] at hs
      by_cases hb : s.jobs.length < d.parallel.toNat
      · simp only [hb, if_true, Option.some.injEq] at hs
        subst hs
        have hnk : n < URLs.length := (List.getElem?_eq_some_iff.mp hu).1
        refine ⟨by simp, h.nworkers, by simp; omega, ?_, ?_, ?_, h.workersOk, h.receivedOk,
          h.keysNodup, h.entriesOk, h.merged, by simp⟩
        · intro m hm
          simp only [Phase.feeding.injEq] at hm
          subst hm
          refine ⟨hnk, hrec, ?_⟩
          simp only [List.length_append, List.length_singleton]
          omega
        · intro i
          have := hacc i
          simp only [List.map_append, List.count_append, List.map_cons, List.map_nil,
            List.count_singleton, Phase.fed, beq_iff_eq]
          split_ifs at this ⊢ <;> omega
        · intro j hj
          rcases List.mem_append.mp hj with hj | hj
          · exact h.jobsOk j hj
          · rw [List.mem_singleton.mp hj]
            exact hu
      · simp [hb] at hs
    | none =>
      simp only [hu, Option.some.injEq] at hs
      subst hs
      have hnk : URLs.length ≤ n := List.getElem?_eq_none_iff.mp hu
      have hnk2 : n = URLs.length := by omega
      refine ⟨by simp, h.nworkers, h.buffer, by simp, ?_, h.jobsOk, h.workersOk, h.receivedOk,
        by simp [GoMap.empty, GoMap.keys], by simp [GoMap.empty], by simp [hrec], by simp⟩
      intro i
      have := hacc i
      simpa only [Phase.fed, hnk2] using this
  | collecting =>
    simp only [hph] at hs
    cases hany : s.workers.any WorkerState.isSending with
    | true => simp [hany] at hs
    | false =>
      simp only [hany, Bool.false_eq_true, if_false] at hs
      by_cases hl : s.output.len = URLs.length
      · simp only [hl, if_true, Option.some.injEq] at hs
        subst hs
        have hacc := h.account
        simp only [hph, Phase.fed] at hacc
        exact ⟨by simp, h.nworkers, h.buffer, by simp, by simpa [Phase.fed] using hacc,
          h.jobsOk, h.workersOk, h.receivedOk, h.keysNodup, h.entriesOk, h.merged, fun _ => hl⟩
      · simp only [hl, if_false, Option.some.injEq] at hs
        subst hs
        exact h
  | returned => simp [hph] at hs
  | panicked => simp [hph] at hs

theorem workerOk_set (md5Sum : List Byte → Sum16) (net : Nat → String → GetResult)
    (URLs : List String) (ws : List WorkerState) (w : Nat) (y : WorkerState)
    (h : ∀ x ∈ ws, WorkerOk md5Sum net URLs x) (hy : WorkerOk md5Sum net URLs y) :
    ∀ x ∈ ws.set w y, WorkerOk md5Sum net URLs x := by
  intro x hx
  rcases List.mem_or_eq_of_mem_set hx with hx | hx
  · exact h x hx
  · rw [hx]; exact hy

theorem Inv_recv (md5Sum : List Byte → Sum16) (net : Nat → String → GetResult) (d : Digester)
    (URLs : List String) (s s2 : RunState) (w : Nat) (h : Inv md5Sum net d URLs s)
    (hs : Run.step md5Sum net d URLs s (.recv w) = some s2) : Inv md5Sum net d URLs s2 := by
  unfold Run.step at hs
  cases hph : s.phase with
  | feeding n => simp [hph] at hs
  | returned => simp [hph] at hs
  | panicked => simp [hph] at hs
  | collecting =>
    cases hw : s.workers[w]? with
    | none => simp [hph, hw] at hs
    | some x =>
      cases x with
      | ranging => simp [hph, hw] at hs
      | fetching j => simp [hph, hw] at hs
      | returned => simp [hph, hw] at hs
      | sending r =>
        have hr : ResultOk md5Sum net URLs r := h.workersOk _ (List.getElem?_mem hw)
        obtain ⟨url, hurl, hreq⟩ := hr
        simp only [hph, hw, merge_eq, hurl, Option.map, Option.some.injEq] at hs
        subst hs
        have hacc := h.account
        simp only [hph, Phase.fed] at hacc
        have hkeys := keys_setEntry url (render r) s.output.entries
        refine ⟨by simp [hph], by simp [h.nworkers], h.buffer, by simp [hph], ?_, h.jobsOk,
          workerOk_set md5Sum net URLs _ w _ h.workersOk trivial, ?_, ?_, ?_, ?_, by simp [hph]⟩
        · intro i
          have h1 := hacc i
          have h2 := count_heldIdx_set s.workers w _ WorkerState.ranging hw i
          simp only [WorkerState.held, List.count_nil, List.count_singleton, beq_iff_eq] at h2
          simp only [List.map_append, List.count_append, List.map_cons, List.map_nil,
            List.count_singleton, Phase.fed, hph, beq_iff_eq]
          split_ifs at h1 h2 ⊢ <;> omega
        · intro r2 hr2
          rcases List.mem_append.mp hr2 with hr2 | hr2
          · exact h.receivedOk r2 hr2
          · rw [List.mem_singleton.mp hr2]
            exact ⟨url, hurl, hreq⟩
        · show ((setEntry url (render r) s.output.entries).map Prod.fst).Nodup
          rw [hkeys]
          split_ifs with hk
          · exact h.keysNodup
          · exact List.Nodup.append h.keysNodup (List.nodup_singleton _)
              (List.disjoint_singleton.mpr hk)
        · intro e he
          rcases mem_setEntry url (render r) s.output.entries e he with he | he
          · exact ⟨r, by simp, by rw [he]; exact hurl, by rw [he]⟩
          · obtain ⟨r2, hr2, h3⟩ := h.entriesOk e he
            exact ⟨r2, List.mem_append_left _ hr2, h3⟩
        · intro r2 hr2
          show ∃ u, URLs[r2.idx]? = some u ∧ u ∈ (setEntry url (render r) s.output.entries).map Prod.fst
          rw [hkeys]
          rcases List.mem_append.mp hr2 with hr2 | hr2
          · obtain ⟨u, hu, hmem⟩ := h.merged r2 hr2
            refine ⟨u, hu, ?_⟩
            split_ifs
            · exact hmem
            · exact List.mem_append_left _ hmem
          · rw [List.mem_singleton.mp hr2]
            refine ⟨url, hurl, ?_⟩
            split_ifs with hk
            · exact hk
            · simp

theorem Inv_take (md5Sum : List Byte → Sum16) (net : Nat → String → GetResult) (d : Digester)
    (URLs : List String) (s s2 : RunState) (w : Nat) (h : Inv md5Sum net d URLs s)
    (hs : Run.step md5Sum net d URLs s (.take w) = some s2) : Inv md5Sum net d URLs s2 := by
  unfold Run.step at hs
  simp only [h.notPanicked, if_false] at hs
  cases hw : s.workers[w]? with
  | none => simp [hw] at hs
  | some x =>
    cases x with
    | fetching j => simp [hw] at hs
    | sending r => simp [hw] at hs
    | returned => simp [hw] at hs
    | ranging =>
      simp only [hw] at hs
      cases hj : s.jobs with
      | nil =>
        simp only [hj] at hs
        cases hc : s.closed with
        | false => simp [hc] at hs
        | true =>
          simp only [hc, if_true, Option.some.injEq] at hs
          subst hs
          have hlen := length_heldIdx_set s.workers w _ WorkerState.returned hw
          simp only [WorkerState.held, List.length_nil] at hlen
          refine ⟨h.notPanicked, by simp [h.nworkers], by simp, ?_, ?_, by simp,
            workerOk_set md5Sum net URLs _ w _ h.workersOk trivial, h.receivedOk, h.keysNodup,
            h.entriesOk, h.merged, h.returned⟩
          · intro n hn
            obtain ⟨h1, h2, h3⟩ := h.feeding n hn
            rw [hj] at h3
            exact ⟨h1, h2, by simp only at hlen ⊢; omega⟩
          · intro i
            have h1 := h.account i
            rw [hj] at h1
            have h2 := count_heldIdx_set s.workers w _ WorkerState.returned hw i
            simp only [WorkerState.held, List.count_nil] at h2
            simp only at h2 ⊢
            rw [show (heldIdx (s.workers.set w WorkerState.returned)).count i
              = (heldIdx s.workers).count i by omega]
            exact h1
      | cons j rest =>
        simp only [hj, Option.some.injEq] at hs
        subst hs
        have hlen := length_heldIdx_set s.workers w _ (WorkerState.fetching j) hw
        simp only [WorkerState.held, List.length_nil, List.length_singleton] at hlen
        have hjok : URLs[j.idx]? = some j.url := h.jobsOk j (by simp [hj])
        refine ⟨h.notPanicked, by simp [h.nworkers], ?_, ?_, ?_, ?_,
          workerOk_set md5Sum net URLs _ w _ h.workersOk hjok, h.receivedOk, h.keysNodup,
          h.entriesOk, h.merged, h.returned⟩
        · have := h.buffer
          simp only [hj, List.length_cons] at this
          simp only
          omega
        · intro n hn
          obtain ⟨h1, h2, h3⟩ := h.feeding n hn
          simp only [hj, List.length_cons] at h3
          exact ⟨h1, h2, by simp only at hlen ⊢; omega⟩
        · intro i
          have h1 := h.account i
          have h2 := count_heldIdx_set s.workers w _ (WorkerState.fetching j) hw i
          simp only [WorkerState.held, List.count_nil, List.count_singleton, beq_iff_eq] at h2
          simp only [hj, List.map_cons, List.count_cons, beq_iff_eq] at h1
          simp only at h2 ⊢
          split_ifs at h1 h2 ⊢ <;> omega
        · intro j2 hj2
          exact h.jobsOk j2 (by simp [hj, hj2])

theorem Inv_fetch (md5Sum : List Byte → Sum16) (net : Nat → String → GetResult) (d : Digester)
    (URLs : List String) (s s2 : RunState) (w : Nat) (h : Inv md5Sum net d URLs s)
    (hs : Run.step md5Sum net d URLs s (.fetch w) = some s2) : Inv md5Sum net d URLs s2 := by
  unfold Run.step at hs
  simp only [h.notPanicked, if_false] at hs
  cases hw : s.workers[w]? with
  | none => simp [hw] at hs
  | some x =>
    cases x with
    | ranging => simp [hw] at hs
    | sending r => simp [hw] at hs
    | returned => simp [hw] at hs
    | fetching j =>
      simp only [hw, Option.some.injEq] at hs
      subst hs
      have hjok : URLs[j.idx]? = some j.url := h.workersOk _ (List.getElem?_mem hw)
      have hlen := length_heldIdx_set s.workers w _
        (WorkerState.sending (workerResult md5Sum (net j.idx) j)) hw
      simp only [WorkerState.held, List.length_singleton] at hlen
      have hok : WorkerOk md5Sum net URLs
          (WorkerState.sending (workerResult md5Sum (net j.idx) j)) :=
        ⟨j.url, hjok, rfl⟩
      refine ⟨h.notPanicked, by simp [h.nworkers], h.buffer, ?_, ?_, h.jobsOk,
        workerOk_set md5Sum net URLs _ w _ h.workersOk hok, h.receivedOk, h.keysNodup,
        h.entriesOk, h.merged, h.returned⟩
      · intro n hn
        obtain ⟨h1, h2, h3⟩ := h.feeding n hn
        exact ⟨h1, h2, by simp only at hlen ⊢; omega⟩
      · intro i
        have h1 := h.account i
        have h2 := count_heldIdx_set s.workers w _
          (WorkerState.sending (workerResult md5Sum (net j.idx) j)) hw i
        simp only [WorkerState.held, workerResult] at h2
        simp only [workerResult] at h2 ⊢
        rw [show (heldIdx (s.workers.set w (WorkerState.sending
            { idx := j.idx, hash := (fetchHash md5Sum (net j.idx) j.url).1,
              err := (fetchHash md5Sum (net j.idx) j.url).2 }))).count i
          = (heldIdx s.workers).count i by omega]
        exact h1

theorem Inv_step (md5Sum : List Byte → Sum16) (net : Nat → String → GetResult) (d : Digester)
    (URLs : List String) (s s2 : RunState) (e : Event) (h : Inv md5Sum net d URLs s)
    (hs : Run.step md5Sum net d URLs s e = some s2) : Inv md5Sum net d URLs s2 := by
  cases e with
  | main => exact Inv_main md5Sum net d URLs s s2 h hs
  | recv w => exact Inv_recv md5Sum net d URLs s s2 w h hs
  | take w => exact Inv_take md5Sum net d URLs s s2 w h hs
  | fetch w => exact Inv_fetch md5Sum net d URLs s s2 w h hs

/-- A property kept by every step holds after every schedule. -/
theorem exec_induction (md5Sum : List Byte → Sum16) (net : Nat → String → GetResult)
    (d : Digester) (URLs : List String) (P : RunState → Prop)
    (hstep : ∀ s e s2, P s → Run.step md5Sum net d URLs s e = some s2 → P s2) :
    ∀ (evs : List Event) (s s2 : RunState), P s →
      Run.exec md5Sum net d URLs s evs = some s2 → P s2 := by
  intro evs
  induction evs with
  | nil =>
    intro s s2 hP h
    simp only [Run.exec, Option.some.injEq] at h
    exact h ▸ hP
  | cons e es ih =>
    intro s s2 hP h
    simp only [Run.exec] at h
    cases hs : Run.step md5Sum net d URLs s e with
    | none => simp [hs] at h
    | some s1 =>
      simp only [hs, Option.some_bind] at h
      exact ih s1 s2 (hstep s e s1 hP hs) h

theorem Inv_exec (md5Sum : List Byte → Sum16) (net : Nat → String → GetResult) (d : Digester)
    (URLs : List String) (limit : Nat) (hp : 0 ≤ d.parallel) (hl : d.parallel ≤ limit)
    (evs : List Event) (s : RunState)
    (h : Run.exec md5Sum net d URLs (Run.init limit d) evs = some s) :
    Inv md5Sum net d URLs s :=
  exec_induction md5Sum net d URLs (Inv md5Sum net d URLs)
    (fun s e s2 hP hs => Inv_step md5Sum net d URLs s s2 e hP hs) evs _ s
    (Inv_init md5Sum net d URLs limit hp hl) h

/-! ### Consequences of the invariant -/

theorem fed_le (md5Sum : List Byte → Sum16) (net : Nat → String → GetResult) (d : Digester)
    (URLs : List String) (s : RunState) (h : Inv md5Sum net d URLs s) :
    s.phase.fed URLs.length ≤ URLs.length := by
  cases hph : s.phase with
  | feeding n => exact (h.feeding n hph).1
  | collecting => exact le_refl _
  | returned => exact le_refl _
  | panicked => exact le_refl _

theorem received_idx_nodup (md5Sum : List Byte → Sum16) (net : Nat → String → GetResult)
    (d : Digester) (URLs : List String) (s : RunState) (h : Inv md5Sum net d URLs s) :
    (s.received.map result.idx).Nodup := by
  rw [List.nodup_iff_count_le_one]
  intro i
  have := h.account i
  split_ifs at this <;> omega

theorem received_idx_lt (md5Sum : List Byte → Sum16) (net : Nat → String → GetResult)
    (d : Digester) (URLs : List String) (s : RunState) (h : Inv md5Sum net d URLs s) :
    ∀ i ∈ s.received.map result.idx, i < URLs.length := by
  intro i hi
  have h1 := h.account i
  have h2 : 0 < (s.received.map result.idx).count i := List.count_pos_iff.mpr hi
  have h3 := fed_le md5Sum net d URLs s h
  split_ifs at h1 <;> omega

theorem received_subperm (md5Sum : List Byte → Sum16) (net : Nat → String → GetResult)
    (d : Digester) (URLs : List String) (s : RunState) (h : Inv md5Sum net d URLs s) :
    (s.received.map result.idx).Subperm (List.range URLs.length) :=
  List.subperm_of_subset (received_idx_nodup md5Sum net d URLs s h) fun i hi =>
    List.mem_range.mpr (received_idx_lt md5Sum net d URLs s h i hi)

theorem received_length_le (md5Sum : List Byte → Sum16) (net : Nat → String → GetResult)
    (d : Digester) (URLs : List String) (s : RunState) (h : Inv md5Sum net d URLs s) :
    s.received.length ≤ URLs.length := by
  have := (received_subperm md5Sum net d URLs s h).length_le
  simpa using this

theorem keys_subperm_received (md5Sum : List Byte → Sum16) (net : Nat → String → GetResult)
    (d : Digester) (URLs : List String) (s : RunState) (h : Inv md5Sum net d URLs s) :
    s.output.keys.Subperm (s.received.filterMap fun r => URLs[r.idx]?) := by
  refine List.subperm_of_subset h.keysNodup fun u hu => ?_
  obtain ⟨e, he, rfl⟩ := List.mem_map.mp hu
  obtain ⟨r, hr, hurl, -⟩ := h.entriesOk e he
  exact List.mem_filterMap.mpr ⟨r, hr, hurl⟩

theorem output_len_le (md5Sum : List Byte → Sum16) (net : Nat → String → GetResult)
    (d : Digester) (URLs : List String) (s : RunState) (h : Inv md5Sum net d URLs s) :
    s.output.len ≤ s.received.length := by
  have h1 := (keys_subperm_received md5Sum net d URLs s h).length_le
  have h2 := List.length_filterMap_le (fun r : result => URLs[r.idx]?) s.received
  simp only [GoMap.keys, List.length_map] at h1
  simp only [GoMap.len]
  omega

theorem keys_subperm_URLs (md5Sum : List Byte → Sum16) (net : Nat → String → GetResult)
    (d : Digester) (URLs : List String) (s : RunState) (h : Inv md5Sum net d URLs s) :
    s.output.keys.Subperm URLs := by
  refine List.subperm_of_subset h.keysNodup fun u hu => ?_
  obtain ⟨e, he, rfl⟩ := List.mem_map.mp hu
  obtain ⟨r, -, hurl, -⟩ := h.entriesOk e he
  exact List.getElem?_mem hurl

/-- With a URL given twice, the test `len(output) == len(URLs)` never succeeds. -/
theorem output_len_lt_of_dup (md5Sum : List Byte → Sum16) (net : Nat → String → GetResult)
    (d : Digester) (URLs : List String) (s : RunState) (h : Inv md5Sum net d URLs s)
    (hdup : ¬ URLs.Nodup) : s.output.len < URLs.length := by
  have hsub := keys_subperm_URLs md5Sum net d URLs s h
  have hle := hsub.length_le
  simp only [GoMap.keys, List.length_map] at hle
  rcases Nat.lt_or_ge s.output.len URLs.length with hlt | hge
  · exact hlt
  · exfalso
    have hperm : s.output.keys.Perm URLs :=
      hsub.perm_of_length_le (by simpa [GoMap.keys, GoMap.len] using hge)
    exact hdup (hperm.nodup_iff.mp h.keysNodup)

/-- After a panic no goroutine takes a step. -/
theorem step_panicked (md5Sum : List Byte → Sum16) (net : Nat → String → GetResult)
    (d : Digester) (URLs : List String) (s : RunState) (e : Event)
    (h : s.phase = .panicked) : Run.step md5Sum net d URLs s e = none := by
  cases e <;> simp [Run.step, h]

theorem exec_panicked (md5Sum : List Byte → Sum16) (net : Nat → String → GetResult)
    (d : Digester) (URLs : List String) (s s2 : RunState) (evs : List Event)
    (h : s.phase = .panicked) (hx : Run.exec md5Sum net d URLs s evs = some s2) : s2 = s := by
  cases evs with
  | nil => simpa [Run.exec] using hx.symm
  | cons e es => simp [Run.exec, step_panicked md5Sum net d URLs s e h] at hx

theorem init_panicked (limit : Nat) (d : Digester)
    (hp : d.parallel < 0 ∨ (limit : Int) < d.parallel) :
    (Run.init limit d).phase = .panicked := by
  simp only [Run.init, hp, if_true]

/-- Every state `Run` reaches is the failure of `make` or satisfies the invariant. -/
theorem reach_cases (md5Sum : List Byte → Sum16) (net : Nat → String → GetResult)
    (d : Digester) (URLs : List String) (limit : Nat) (evs : List Event) (s : RunState)
    (h : Run.exec md5Sum net d URLs (Run.init limit d) evs = some s) :
    s.phase = .panicked ∨ Inv md5Sum net d URLs s := by
  by_cases hp : d.parallel < 0 ∨ (limit : Int) < d.parallel
  · left
    rw [exec_panicked md5Sum net d URLs _ s evs (init_panicked limit d hp) h]
    exact init_panicked limit d hp
  · exact Or.inr (Inv_exec md5Sum net d URLs limit (by omega) (by omega) evs s h)

/-- While more than `2 * d.parallel` URLs are given, `Run` stays in its feeding loop:
at most `d.parallel` jobs sit in the channel and at most `d.parallel` are held by
workers, none of which can deliver. -/
theorem feeding_forever (md5Sum : List Byte → Sum16) (net : Nat → String → GetResult)
    (d : Digester) (URLs : List String) (hk : 2 * d.parallel.toNat < URLs.length)
    (s s2 : RunState) (e : Event)
    (h : Inv md5Sum net d URLs s ∧ ∃ n, s.phase = .feeding n)
    (hs : Run.step md5Sum net d URLs s e = some s2) :
    Inv md5Sum net d URLs s2 ∧ ∃ n, s2.phase = .feeding n := by
  refine ⟨Inv_step md5Sum net d URLs s s2 e h.1 hs, ?_⟩
  obtain ⟨hinv, n, hn⟩ := h
  obtain ⟨-, -, hlen⟩ := hinv.feeding n hn
  have h1 := length_heldIdx_le s.workers
  have h2 := hinv.nworkers
  have h3 := hinv.buffer
  have hnk : n < URLs.length := by omega
  cases e with
  | main =>
    simp only [Run.step, hn, List.getElem?_eq_getElem hnk] at hs
    split_ifs at hs
    simp only [Option.some.injEq] at hs
    exact ⟨n + 1, by rw [← hs]⟩
  | recv w => simp [Run.step, hn] at hs
  | take w =>
    simp only [Run.step, hinv.notPanicked, if_false] at hs
    split at hs
    · split at hs
      · simp only [Option.some.injEq] at hs
        exact ⟨n, by rw [← hs]; exact hn⟩
      · split_ifs at hs
        simp only [Option.some.injEq] at hs
        exact ⟨n, by rw [← hs]; exact hn⟩
    · simp at hs
  | fetch w =>
    simp only [Run.step, hinv.notPanicked, if_false] at hs
    split at hs
    · simp only [Option.some.injEq] at hs
      exact ⟨n, by rw [← hs]; exact hn⟩
    · simp at hs

/-! ### Pairwise distinct URLs -/

theorem received_length_le_output_len (md5Sum : List Byte → Sum16)
    (net : Nat → String → GetResult) (d : Digester) (URLs : List String) (s : RunState)
    (h : Inv md5Sum net d URLs s) (hnd : URLs.Nodup) : s.received.length ≤ s.output.len := by
  have hL : ((s.received.map result.idx).map fun i => URLs[i]?).Nodup := by
    refine List.Nodup.map_on ?_ (received_idx_nodup md5Sum net d URLs s h)
    intro i hi j _ hij
    exact List.getElem?_inj (received_idx_lt md5Sum net d URLs s h i hi) hnd hij
  have hsub : ((s.received.map result.idx).map fun i => URLs[i]?).Subperm
      (s.output.keys.map some) := by
    refine List.subperm_of_subset hL fun x hx => ?_
    simp only [List.map_map, List.mem_map, Function.comp] at hx
    obtain ⟨r, hr, rfl⟩ := hx
    obtain ⟨u, hu, hmem⟩ := h.merged r hr
    rw [hu]
    exact List.mem_map.mpr ⟨u, hmem, rfl⟩
  have := hsub.length_le
  simpa [GoMap.keys, GoMap.len] using this

theorem output_len_eq_received (md5Sum : List Byte → Sum16)
    (net : Nat → String → GetResult) (d : Digester) (URLs : List String) (s : RunState)
    (h : Inv md5Sum net d URLs s) (hnd : URLs.Nodup) : s.output.len = s.received.length :=
  Nat.le_antisymm (output_len_le md5Sum net d URLs s h)
    (received_length_le_output_len md5Sum net d URLs s h hnd)

/-- With pairwise distinct URLs the value stored under the URL of a received Result is
the rendering of that very Result. -/
theorem get_of_received (md5Sum : List Byte → Sum16)
    (net : Nat → String → GetResult) (d : Digester) (URLs : List String) (s : RunState)
    (h : Inv md5Sum net d URLs s) (hnd : URLs.Nodup) (r : result) (hr : r ∈ s.received)
    (url : String) (hurl : URLs[r.idx]? = some url) : s.output.get url = some (render r) := by
  obtain ⟨u, hu, hmem⟩ := h.merged r hr
  rw [hurl, Option.some.injEq] at hu
  subst hu
  obtain ⟨e, he, he1⟩ := List.mem_map.mp hmem
  obtain ⟨r2, hr2, hurl2, hval⟩ := h.entriesOk e he
  have hlt : r2.idx < URLs.length := (List.getElem?_eq_some_iff.mp hurl2).1
  have hidx : r2.idx = r.idx :=
    List.getElem?_inj hlt hnd (by rw [hurl2, hurl, he1])
  obtain ⟨u1, hu1, hreq⟩ := h.receivedOk r hr
  obtain ⟨u2, hu2, hreq2⟩ := h.receivedOk r2 hr2
  have hr2r : r2 = r := by
    rw [hreq2, hreq]
    rw [hidx] at hu2 ⊢
    rw [hu1, Option.some.injEq] at hu2
    rw [hu2]
  have hmem2 : (url, render r) ∈ s.output.entries := by
    have : e = (url, render r) := by
      rw [← hr2r, ← hval, ← he1]
    exact this ▸ he
  exact lookup_of_mem s.output.entries h.keysNodup url (render r) hmem2

/-- When `Run` has returned for pairwise distinct URLs, the mapping has one entry for
each URL, and the value under the URL at index `i` renders the outcome of fetching
that URL itself. -/
theorem Run_returned_output (md5Sum : List Byte → Sum16)
    (net : Nat → String → GetResult) (d : Digester) (URLs : List String) (evs : List Event)
    (limit : Nat) (s : RunState) (hnd : URLs.Nodup)
    (h : Run.exec md5Sum net d URLs (Run.init limit d) evs = some s)
    (hret : s.phase = .returned) :
    s.output.len = URLs.length ∧ s.output.keys.Perm URLs ∧
    ∀ i url, URLs[i]? = some url →
      s.output.get url = some (render (workerResult md5Sum (net i) ⟨i, url⟩)) := by
  rcases reach_cases md5Sum net d URLs limit evs s h with hp | hinv
  · rw [hp] at hret
    exact absurd hret (by simp)
  · have hlen := hinv.returned hret
    refine ⟨hlen, ?_, ?_⟩
    · exact (keys_subperm_URLs md5Sum net d URLs s hinv).perm_of_length_le
        (by simp [GoMap.keys, GoMap.len] at hlen ⊢; omega)
    · intro i url hurl
      have h2 := output_len_le md5Sum net d URLs s hinv
      have h3 := received_length_le md5Sum net d URLs s hinv
      have hperm : (s.received.map result.idx).Perm (List.range URLs.length) :=
        (received_subperm md5Sum net d URLs s hinv).perm_of_length_le (by simp; omega)
      have hi : i ∈ s.received.map result.idx :=
        hperm.mem_iff.mpr (List.mem_range.mpr (List.getElem?_eq_some_iff.mp hurl).1)
      obtain ⟨r, hr, hri⟩ := List.mem_map.mp hi
      obtain ⟨u, hu, hreq⟩ := hinv.receivedOk r hr
      rw [hri] at hu hreq
      rw [hurl, Option.some.injEq] at hu
      subst hu
      rw [← hreq]
      exact get_of_received md5Sum net d URLs s hinv hnd r hr url (by rw [hri]; exact hurl)

/-! ### No URL at all -/

theorem not_sending_of_idle (ws : List WorkerState)
    (h : ∀ x ∈ ws, x = WorkerState.ranging ∨ x = WorkerState.returned) :
    ws.any WorkerState.isSending = false := by
  rw [any_isSending_eq_false]
  intro r hr
  rcases h _ hr with h1 | h1 <;> cases h1

theorem Idle_init (limit : Nat) (d : Digester) (hp : 0 ≤ d.parallel)
    (hl : d.parallel ≤ limit) : Idle (Run.init limit d) := by
  have hp2 : ¬ (d.parallel < 0 ∨ (limit : Int) < d.parallel) := by omega
  simp only [Run.init, hp2, if_false]
  refine ⟨rfl, rfl, rfl, fun x hx => Or.inl (List.eq_of_mem_replicate hx), Or.inl rfl⟩

/-- With no URL, a step keeps the state idle, is a step of `Run` itself or a worker
leaving its loop, and a step of `Run` brings it one statement closer to its return. -/
theorem Idle_step (md5Sum : List Byte → Sum16) (net : Nat → String → GetResult)
    (d : Digester) (s s2 : RunState) (e : Event) (h : Idle s)
    (hs : Run.step md5Sum net d [] s e = some s2) :
    Idle s2 ∧ (∀ w, e ≠ .recv w ∧ e ≠ .fetch w) ∧
    (if e = .main then 1 else 0) + mainsLeft s2.phase = mainsLeft s.phase := by
  obtain ⟨hj, hr, ho, hw, hph⟩ := h
  have hns := not_sending_of_idle s.workers hw
  cases e with
  | main =>
    rcases hph with hph | hph | hph
    · simp only [Run.step, hph, List.getElem?_nil, Option.some.injEq] at hs
      subst hs
      exact ⟨⟨hj, hr, rfl, hw, Or.inr (Or.inl rfl)⟩, by simp, by simp [mainsLeft, hph]⟩
    · have hl : s.output.len = ([] : List String).length := by rw [ho]; rfl
      simp only [Run.step, hph, hns, Bool.false_eq_true, if_false, hl, if_true,
        Option.some.injEq] at hs
      subst hs
      exact ⟨⟨hj, hr, ho, hw, Or.inr (Or.inr rfl)⟩, by simp, by simp [mainsLeft, hph]⟩
    · simp [Run.step, hph] at hs
  | recv w =>
    exfalso
    simp only [Run.step] at hs
    split at hs
    · rename_i r hphase hwork
      rcases hw _ (List.getElem?_mem hwork) with h1 | h1 <;> cases h1
    · simp at hs
  | take w =>
    have hpan : s.phase ≠ .panicked := by
      rcases hph with hph | hph | hph <;> rw [hph] <;> simp
    simp only [Run.step, hpan, if_false, hj] at hs
    split at hs
    · cases hc : s.closed with
      | false => simp [hc] at hs
      | true =>
        simp only [hc, if_true, Option.some.injEq] at hs
        subst hs
        refine ⟨⟨rfl, hr, ho, ?_, hph⟩, by simp, by simp⟩
        intro x hx
        rcases List.mem_or_eq_of_mem_set hx with hx | hx
        · exact hw x hx
        · exact Or.inr hx
    · simp at hs
  | fetch w =>
    exfalso
    simp only [Run.step] at hs
    split_ifs at hs with hpan
    split at hs
    · rename_i j hwork
      rcases hw _ (List.getElem?_mem hwork) with h1 | h1 <;> cases h1
    · simp at hs

theorem Idle_exec (md5Sum : List Byte → Sum16) (net : Nat → String → GetResult)
    (d : Digester) (evs : List Event) (s s2 : RunState) (h : Idle s)
    (hx : Run.exec md5Sum net d [] s evs = some s2) :
    Idle s2 ∧ (∀ w, Event.recv w ∉ evs ∧ Event.fetch w ∉ evs) ∧
    evs.count .main + mainsLeft s2.phase = mainsLeft s.phase := by
  induction evs generalizing s with
  | nil =>
    simp only [Run.exec, Option.some.injEq] at hx
    subst hx
    exact ⟨h, by simp, by simp⟩
  | cons e es ih =>
    simp only [Run.exec] at hx
    cases hs : Run.step md5Sum net d [] s e with
    | none => simp [hs] at hx
    | some s1 =>
      simp only [hs, Option.some_bind] at hx
      obtain ⟨hi1, hne, hcount⟩ := Idle_step md5Sum net d s s1 e h hs
      obtain ⟨hi2, hnot, hc2⟩ := ih s1 hi1 hx
      refine ⟨hi2, fun w => ?_, ?_⟩
      · simp only [List.mem_cons, not_or]
        exact ⟨⟨fun hh => (hne w).1 hh.symm, (hnot w).1⟩, ⟨fun hh => (hne w).2 hh.symm, (hnot w).2⟩⟩
      · rw [List.count_cons]
        simp only [beq_iff_eq]
        split_ifs at hcount ⊢ <;> omega

theorem Idle_main_enabled (md5Sum : List Byte → Sum16) (net : Nat → String → GetResult)
    (d : Digester) (s : RunState) (h : Idle s) (hne : s.phase ≠ .returned) :
    (Run.step md5Sum net d [] s .main).isSome = true := by
  obtain ⟨hj, hr, ho, hw, hph⟩ := h
  have hns := not_sending_of_idle s.workers hw
  rcases hph with hph | hph | hph
  · simp [Run.step, hph]
  · have hl : s.output.len = ([] : List String).length := by rw [ho]; rfl
    simp [Run.step, hph, hns, hl]
  · exact absurd hph hne

/-! ## Construction and configuration -/

/-- C10: for every integer `p`, `New p` has parallelism `p` and request timeout
`DefaultTimeout`, which is five seconds; `SetTimeout t` then makes the timeout `t`
and leaves the parallelism unchanged. -/
theorem New_SetTimeout_frame (p : Int) (t : Duration) :
    (New p).parallel = p ∧ (New p).client.Timeout = DefaultTimeout ∧
    DefaultTimeout = 5 * 1000000000 ∧
    ((New p).SetTimeout t).client.Timeout = t ∧ ((New p).SetTimeout t).parallel = p :=
  ⟨rfl, rfl, by decide, rfl, rfl⟩

/-! ## Fetch-and-hash -/

/-- C4: when the transport succeeds with a status code below 400 and the body `b` is
read, `fetchHash` returns the lowercase hexadecimal rendering `h` of `md5Sum b` and no
error; `h` has 32 characters, all among `0-9a-f`, decodes to the 16 bytes of the
digest, and is the value the receive case of `Run` stores under the URL. -/
theorem fetchHash_success_md5_hex (md5Sum : List Byte → Sum16) (Get : String → GetResult)
    (url : String) (c : Int) (b : List Byte) (URLs : List String) (output : GoMap) (idx : Nat)
    (hget : Get url = .ok ⟨c, .ok b⟩) (hc : c < 400) (hidx : URLs[idx]? = some url) :
    fetchHash md5Sum Get url = (fmtX (md5Sum b), none) ∧
    (fmtX (md5Sum b)).length = 32 ∧
    (∀ ch ∈ (fmtX (md5Sum b)).data, ch ∈ "0123456789abcdef".data) ∧
    hexDecode (fmtX (md5Sum b)).data = some (List.ofFn (md5Sum b)) ∧
    (List.ofFn (md5Sum b)).length = 16 ∧
    ∃ out, merge URLs output (workerResult md5Sum Get ⟨idx, url⟩) = some out ∧
      out.get url = some (fmtX (md5Sum b)) := by
  have hf : fetchHash md5Sum Get url = (fmtX (md5Sum b), none) := by
    have hc' : ¬ c ≥ StatusBadRequest := by simp only [StatusBadRequest]; omega
    simp [fetchHash, hget, hc']
  refine ⟨hf, fmtX_length _, fmtX_chars _, hexDecode_flatMap _, List.length_ofFn _, ?_⟩
  refine ⟨output.set url (fmtX (md5Sum b)), ?_, get_set_self _ _ _⟩
  simp [merge_eq, workerResult, hf, hidx, render]

/-- Witness of C4: status 200 with an empty body, for the URL `http://x`. -/
theorem fetchHash_success_md5_hex_witness :
    fetchHash (fun _ _ => 0) (fun _ => .ok ⟨200, .ok []⟩) "http://x"
      = ("00000000000000000000000000000000", none) :=
  (fetchHash_success_md5_hex (fun _ _ => 0) (fun _ => .ok ⟨200, .ok []⟩) "http://x" 200 []
    ["http://x"] GoMap.empty 0 rfl (by decide) rfl).1

/-- C5: when the transport succeeds with status code `c`, `fetchHash` returns the status
error exactly when `c ≥ 400`. For `c ≥ 400` the hash is empty, the message is
`remote returned rsp code ` followed by `c` in decimal, whatever the body is, and `Run`
stores `failed: remote returned rsp code <c>` under the URL; for `c < 400` no error
with such a message is returned. -/
theorem fetchHash_status_error_iff (md5Sum : List Byte → Sum16) (Get : String → GetResult)
    (url : String) (c : Int) (body : Except GoError (List Byte)) (URLs : List String)
    (output : GoMap) (idx : Nat)
    (hget : Get url = .ok ⟨c, body⟩) (hidx : URLs[idx]? = some url) :
    ((fetchHash md5Sum Get url).2 = some ("remote returned rsp code " ++ fmtD c) ↔ c ≥ 400) ∧
    (c ≥ 400 →
      fetchHash md5Sum Get url = ("", some ("remote returned rsp code " ++ fmtD c)) ∧
      (∀ body2, fetchHash md5Sum (fun _ => .ok ⟨c, body2⟩) url = fetchHash md5Sum Get url) ∧
      ∃ out, merge URLs output (workerResult md5Sum Get ⟨idx, url⟩) = some out ∧
        out.get url = some ("failed: remote returned rsp code " ++ fmtD c) ∧
        (c = 500 → out.get url = some "failed: remote returned rsp code 500")) ∧
    (c < 400 → ∀ c2, (fetchHash md5Sum Get url).2 ≠ some ("remote returned rsp code " ++ fmtD c2)) := by
  have hge : c ≥ 400 →
      fetchHash md5Sum Get url = ("", some ("remote returned rsp code " ++ fmtD c)) := by
    intro hc
    have hc' : c ≥ StatusBadRequest := by simp only [StatusBadRequest]; omega
    simp [fetchHash, hget, hc', newHttpError]
  have hlt : c < 400 →
      ∀ c2, (fetchHash md5Sum Get url).2 ≠ some ("remote returned rsp code " ++ fmtD c2) := by
    intro hc c2
    have hc' : ¬ c ≥ StatusBadRequest := by simp only [StatusBadRequest]; omega
    cases body with
    | error m =>
      simp only [fetchHash, hget, hc', if_false, newByteError]
      intro h
      exact readError_ne_statusError m (fmtD c2) (Option.some.inj h)
    | ok b => simp [fetchHash, hget, hc']
  refine ⟨⟨fun h => ?_, fun hc => by rw [hge hc]⟩, fun hc => ⟨hge hc, fun body2 => ?_, ?_⟩, hlt⟩
  · by_contra hc
    exact hlt (by omega) c h
  · have hc' : c ≥ StatusBadRequest := by simp only [StatusBadRequest]; omega
    rw [hge hc]
    simp [fetchHash, hc', newHttpError]
  · have hstr : failedFormat ("remote returned rsp code " ++ fmtD c)
        = "failed: remote returned rsp code " ++ fmtD c := by
      simp only [failedFormat, ← String.append_assoc]
      rfl
    refine ⟨output.set url ("failed: remote returned rsp code " ++ fmtD c), ?_,
      get_set_self _ _ _, fun h5 => ?_⟩
    · simp [merge_eq, workerResult, hge hc, hidx, render, hstr]
    · subst h5
      exact get_set_self _ _ _

/-- Witness of C5: the scenario of a server answering 500 for `http://x`. -/
theorem fetchHash_status_error_iff_witness :
    fetchHash (fun _ _ => 0) (fun _ => .ok ⟨500, .ok []⟩) "http://x"
      = ("", some ("remote returned rsp code " ++ fmtD 500)) :=
  ((fetchHash_status_error_iff (fun _ _ => 0) (fun _ => .ok ⟨500, .ok []⟩) "http://x" 500
    (.ok []) ["http://x"] GoMap.empty 0 rfl rfl).2.1 (by decide)).1

/-- C6: for a transport failure with message `m` the receive case of `Run` stores
`failed: ` followed by `m`, for a failure with message `m` while reading the body it
stores `failed: failed to read response body (m)`; in both cases the stored value is
`failed: ` followed by a message that is not empty (for the transport, because the
message `m` of the `*url.Error` that `http.Client.Get` returns is not). -/
theorem Run_stores_failure_message (md5Sum : List Byte → Sum16) (Get : String → GetResult)
    (url m : String) (URLs : List String) (output : GoMap) (idx : Nat)
    (hidx : URLs[idx]? = some url) :
    (Get url = .error m → m ≠ "" →
      ∃ out msg, merge URLs output (workerResult md5Sum Get ⟨idx, url⟩) = some out ∧
        out.get url = some ("failed: " ++ msg) ∧ msg ≠ "" ∧ msg = m) ∧
    (∀ c, c < 400 → Get url = .ok ⟨c, .error m⟩ →
      ∃ out msg, merge URLs output (workerResult md5Sum Get ⟨idx, url⟩) = some out ∧
        out.get url = some ("failed: " ++ msg) ∧ msg ≠ "" ∧
        msg = "failed to read response body (" ++ m ++ ")") := by
  constructor
  · intro hget hm
    refine ⟨output.set url ("failed: " ++ m), m, ?_, get_set_self _ _ _, hm, rfl⟩
    simp [merge_eq, workerResult, fetchHash, hget, hidx, render, failedFormat]
  · intro c hc hget
    have hc2 : ¬ c ≥ StatusBadRequest := by simp only [StatusBadRequest]; omega
    refine ⟨output.set url ("failed: " ++ ("failed to read response body (" ++ m ++ ")")),
      "failed to read response body (" ++ m ++ ")", ?_, get_set_self _ _ _,
      readError_ne_empty m, rfl⟩
    simp [merge_eq, workerResult, fetchHash, hget, hc2, hidx, render, failedFormat, newByteError]

/-- Witness of C6: a connection timeout, and a body cut short after status 200. -/
theorem Run_stores_failure_message_witness :
    (∃ out msg, merge ["http://x"] GoMap.empty
        (workerResult (fun _ _ => 0) (fun _ => .error "timeout") ⟨0, "http://x"⟩) = some out ∧
      out.get "http://x" = some ("failed: " ++ msg) ∧ msg ≠ "" ∧ msg = "timeout") ∧
    (∃ out msg, merge ["http://x"] GoMap.empty
        (workerResult (fun _ _ => 0) (fun _ => .ok ⟨200, .error "unexpected EOF"⟩)
          ⟨0, "http://x"⟩) = some out ∧
      out.get "http://x" = some ("failed: " ++ msg) ∧ msg ≠ "" ∧
      msg = "failed to read response body (" ++ "unexpected EOF" ++ ")") :=
  ⟨(Run_stores_failure_message (fun _ _ => 0) (fun _ => .error "timeout") "http://x" "timeout"
      ["http://x"] GoMap.empty 0 rfl).1 rfl (by decide),
   (Run_stores_failure_message (fun _ _ => 0) (fun _ => .ok ⟨200, .error "unexpected EOF"⟩)
      "http://x" "unexpected EOF" ["http://x"] GoMap.empty 0 rfl).2 200 (by decide) rfl⟩

/-- C9: `fetchHash` returns either a non-empty hash and no error, or an empty hash and
an error, and the worker puts exactly that pair, with the index of its job, into the
Result it sends. -/
theorem fetchHash_exactly_one_populated (md5Sum : List Byte → Sum16)
    (net : Nat → String → GetResult) (d : Digester) (URLs : List String) (s : RunState)
    (w : Nat) (j : job) (hp : s.phase ≠ .panicked) (hw : s.workers[w]? = some (.fetching j)) :
    (∀ (Get : String → GetResult) (url : String),
      ((fetchHash md5Sum Get url).1 ≠ "" ∧ (fetchHash md5Sum Get url).2 = none) ∨
      ((fetchHash md5Sum Get url).1 = "" ∧ (fetchHash md5Sum Get url).2 ≠ none)) ∧
    Run.step md5Sum net d URLs s (.fetch w) = some { s with
      workers := s.workers.set w (.sending
        { idx := j.idx, hash := (fetchHash md5Sum (net j.idx) j.url).1,
          err := (fetchHash md5Sum (net j.idx) j.url).2 }) } := by
  constructor
  · intro Get url
    unfold fetchHash
    cases hg : Get url with
    | error m => simp
    | ok rsp =>
      obtain ⟨code, body⟩ := rsp
      by_cases hc : code ≥ StatusBadRequest
      · simp [hc]
      · cases body with
        | error m => simp [hc]
        | ok b =>
          left
          simp only [hc, if_false]
          refine ⟨fun h => ?_, trivial⟩
          have := fmtX_length (md5Sum b)
          rw [h] at this
          exact absurd this (by decide)
  · simp [Run.step, hp, hw, workerResult]

/-- Witness of C9: one worker holding job 0 of `Run("http://x")`. -/
theorem fetchHash_exactly_one_populated_witness :
    Run.step (fun _ _ => 0) (fun _ _ => .error "timeout") (New 1) ["http://x"]
      { jobs := [], closed := false, workers := [.fetching ⟨0, "http://x"⟩], phase := .feeding 1,
        output := GoMap.empty, received := [] } (.fetch 0)
    = some { jobs := [], closed := false, workers := [.sending ⟨0, "", some "timeout"⟩],
             phase := .feeding 1, output := GoMap.empty, received := [] } :=
  (fetchHash_exactly_one_populated (fun _ _ => 0) (fun _ _ => .error "timeout") (New 1)
    ["http://x"]
    { jobs := [], closed := false, workers := [.fetching ⟨0, "http://x"⟩], phase := .feeding 1,
      output := GoMap.empty, received := [] }
    0 ⟨0, "http://x"⟩ (by decide) rfl).2

/-! ## Run: what a returned mapping contains -/

/-- C3: in every execution of `Run`, for every input and every schedule, once
`return output` has been executed the aggregator has received exactly `len(URLs)`
Results, exactly one for every job index, and each of them has been merged into the
output under its URL. -/
theorem Run_returns_only_complete (md5Sum : List Byte → Sum16)
    (net : Nat → String → GetResult) (limit : Nat) (d : Digester) (URLs : List String)
    (evs : List Event) (s : RunState)
    (h : Run.exec md5Sum net d URLs (Run.init limit d) evs = some s)
    (hret : s.phase = .returned) :
    s.received.length = URLs.length ∧
    (s.received.map result.idx).Perm (List.range URLs.length) ∧
    (∀ r ∈ s.received, ∃ u, URLs[r.idx]? = some u ∧ u ∈ s.output.keys) := by
  rcases reach_cases md5Sum net d URLs limit evs s h with hp | hinv
  · rw [hp] at hret
    exact absurd hret (by simp)
  · have h1 := hinv.returned hret
    have h2 := output_len_le md5Sum net d URLs s hinv
    have h3 := received_length_le md5Sum net d URLs s hinv
    have hlen : s.received.length = URLs.length := by omega
    refine ⟨hlen, ?_, hinv.merged⟩
    exact (received_subperm md5Sum net d URLs s hinv).perm_of_length_le (by simp [hlen])

/-- Witness of C3: one worker, one URL whose fetch fails; `Run` returns after the
Result has been received. -/
theorem Run_returns_only_complete_witness :
    ([⟨0, "", some "boom"⟩] : List result).length = ["a"].length ∧
    (([⟨0, "", some "boom"⟩] : List result).map result.idx).Perm (List.range ["a"].length) ∧
    (∀ r ∈ ([⟨0, "", some "boom"⟩] : List result),
      ∃ u, ["a"][r.idx]? = some u ∧ u ∈ (GoMap.mk [("a", "failed: boom")]).keys) :=
  Run_returns_only_complete (fun _ _ => 0) (fun _ _ => .error "boom") limit64 (New 1) ["a"]
    [.main, .main, .take 0, .fetch 0, .recv 0, .main]
    { jobs := [], closed := true, workers := [.ranging], phase := .returned,
      output := ⟨[("a", "failed: boom")]⟩, received := [⟨0, "", some "boom"⟩] }
    (by decide) rfl

/-! ## Run: inputs on which it does not return -/

/-- C1, at the input `New(1).Run("a", "b", "c")`: whatever the fetches answer and
whatever the schedule, `Run` never returns; on every runtime that can serve one worker
it never leaves its feeding loop, having sent at most two of the three jobs. -/
theorem Run_three_urls_one_worker_never_returns (md5Sum : List Byte → Sum16)
    (net : Nat → String → GetResult) (limit : Nat) (evs : List Event) (s : RunState)
    (h : Run.exec md5Sum net (New 1) ["a", "b", "c"] (Run.init limit (New 1)) evs = some s) :
    s.phase ≠ .returned ∧ (1 ≤ limit → ∃ n, n ≤ 2 ∧ s.phase = .feeding n) := by
  have hpar : (New 1).parallel = 1 := rfl
  by_cases hl : 1 ≤ limit
  · have hk : 2 * (New 1).parallel.toNat < ["a", "b", "c"].length := by decide
    have hcond : ¬ ((New 1).parallel < 0 ∨ (limit : Int) < (New 1).parallel) := by
      rw [hpar]; omega
    have hinit : Inv md5Sum net (New 1) ["a", "b", "c"] (Run.init limit (New 1)) ∧
        ∃ n, (Run.init limit (New 1)).phase = .feeding n :=
      ⟨Inv_init md5Sum net (New 1) _ limit (by decide) (by rw [hpar]; omega), 0,
        by simp only [Run.init, hcond, if_false]⟩
    obtain ⟨hinv, n, hn⟩ := exec_induction md5Sum net (New 1) ["a", "b", "c"]
      (fun s => Inv md5Sum net (New 1) ["a", "b", "c"] s ∧ ∃ n, s.phase = .feeding n)
      (fun s e s2 hP hs => feeding_forever md5Sum net (New 1) _ hk s s2 e hP hs)
      evs _ s hinit h
    refine ⟨by rw [hn]; simp, fun _ => ⟨n, ?_, hn⟩⟩
    obtain ⟨-, -, hlen⟩ := hinv.feeding n hn
    have h1 := length_heldIdx_le s.workers
    have h2 := hinv.nworkers
    have h3 := hinv.buffer
    have h4 : (New 1).parallel.toNat = 1 := by decide
    omega
  · have hpan : (Run.init limit (New 1)).phase = .panicked :=
      init_panicked limit (New 1) (Or.inr (by rw [hpar]; omega))
    rw [exec_panicked md5Sum net (New 1) _ _ s evs hpan h, hpan]
    exact ⟨by simp, fun h1 => absurd h1 hl⟩

/-- Witness of C1: after the schedule below job 1 fills the channel, the only worker is
blocked sending the Result of job 0, `Run` is blocked sending job 2, and no event can
happen any more. -/
theorem Run_three_urls_one_worker_never_returns_witness :
    Run.exec (fun _ _ => 0) (fun _ _ => .error "boom") (New 1) ["a", "b", "c"]
        (Run.init limit64 (New 1)) [.main, .take 0, .main, .fetch 0]
      = some { jobs := [⟨1, "b"⟩], closed := false, workers := [.sending ⟨0, "", some "boom"⟩],
               phase := .feeding 2, output := GoMap.empty, received := [] } ∧
    (∀ e, Run.step (fun _ _ => 0) (fun _ _ => .error "boom") (New 1) ["a", "b", "c"]
        { jobs := [⟨1, "b"⟩], closed := false, workers := [.sending ⟨0, "", some "boom"⟩],
          phase := .feeding 2, output := GoMap.empty, received := [] } e = none) ∧
    Phase.feeding 2 ≠ .returned ∧ (1 ≤ limit64 → ∃ n, n ≤ 2 ∧ Phase.feeding 2 = .feeding n) := by
  refine ⟨by decide, ?_, ?_⟩
  · intro e
    cases e with
    | main => decide
    | recv w => simp [Run.step]
    | take w => cases w <;> simp [Run.step]
    | fetch w => cases w <;> simp [Run.step]
  · exact Run_three_urls_one_worker_never_returns (fun _ _ => 0) (fun _ _ => .error "boom")
      limit64 [.main, .take 0, .main, .fetch 0]
      { jobs := [⟨1, "b"⟩], closed := false, workers := [.sending ⟨0, "", some "boom"⟩],
        phase := .feeding 2, output := GoMap.empty, received := [] }
      (by decide)

/-- C2, at the input `Run(u, u)`: for every parallelism, every fetch behaviour and
every schedule `Run` never returns, because in its collecting loop `len(output)` stays
below `len(URLs) = 2`. -/
theorem Run_duplicate_never_returns (md5Sum : List Byte → Sum16)
    (net : Nat → String → GetResult) (limit : Nat) (p : Int) (u : String) (evs : List Event)
    (s : RunState)
    (h : Run.exec md5Sum net (New p) [u, u] (Run.init limit (New p)) evs = some s) :
    s.phase ≠ .returned ∧ (s.phase = .collecting → s.output.len < 2) := by
  rcases reach_cases md5Sum net (New p) [u, u] limit evs s h with hp | hinv
  · rw [hp]
    simp
  · have hlt := output_len_lt_of_dup md5Sum net (New p) [u, u] s hinv (by simp)
    refine ⟨fun hret => ?_, fun _ => hlt⟩
    have := hinv.returned hret
    omega

/-- Witness of C2: one worker; both Results of `Run("u", "u")` have been received and
merged, the output has one entry, and `Run` is still in its collecting loop. -/
theorem Run_duplicate_never_returns_witness :
    Run.exec (fun _ _ => 0) (fun i _ => if i = 0 then .error "first" else .error "second")
        (New 1) ["u", "u"] (Run.init limit64 (New 1))
        [.main, .take 0, .main, .fetch 0, .main, .recv 0, .take 0, .fetch 0, .recv 0, .main]
      = some { jobs := [], closed := true, workers := [.ranging], phase := .collecting,
               output := ⟨[("u", "failed: second")]⟩,
               received := [⟨0, "", some "first"⟩, ⟨1, "", some "second"⟩] } ∧
    Phase.collecting ≠ .returned :=
  ⟨by decide,
   (Run_duplicate_never_returns (fun _ _ => 0)
      (fun i _ => if i = 0 then .error "first" else .error "second") limit64 1 "u"
      [.main, .take 0, .main, .fetch 0, .main, .recv 0, .take 0, .fetch 0, .recv 0, .main]
      { jobs := [], closed := true, workers := [.ranging], phase := .collecting,
        output := ⟨[("u", "failed: second")]⟩,
        received := [⟨0, "", some "first"⟩, ⟨1, "", some "second"⟩] }
      (by decide)).1⟩

/-! ## Run: no URL -/

/-- Counterexample to C7, for `New(1 << 48).Run()` on a 64-bit platform: the parallelism
is at least 1, but `make(chan job, 1 << 48)` panics, whatever the bound of the runtime
below `limit64` is; no statement of `Run` and no worker is executed after it, and the
two statements that would return the empty mapping cannot happen. -/
theorem Run_empty_panics_large_parallelism :
    (1 : Int) ≤ (New 281474976710656).parallel ∧
    (Run.init limit64 (New 281474976710656)).phase = .panicked ∧
    Run.exec (fun _ _ => 0) (fun _ _ => .error "boom") (New 281474976710656) []
      (Run.init limit64 (New 281474976710656)) [.main, .main] = none ∧
    (∀ e, Run.step (fun _ _ => 0) (fun _ _ => .error "boom") (New 281474976710656) []
      (Run.init limit64 (New 281474976710656)) e = none) ∧
    (∀ evs s, Run.exec (fun _ _ => 0) (fun _ _ => .error "boom") (New 281474976710656) []
      (Run.init limit64 (New 281474976710656)) evs = some s → s.phase ≠ .returned) := by
  have hpan : (Run.init limit64 (New 281474976710656)).phase = .panicked :=
    init_panicked limit64 (New 281474976710656) (Or.inr (by decide))
  refine ⟨by decide, hpan, ?_, fun e => step_panicked _ _ _ _ _ e hpan, fun evs s h => ?_⟩
  · simp only [Run.exec, step_panicked _ _ _ _ _ _ hpan, Option.none_bind]
  · rw [exec_panicked _ _ _ _ _ s evs hpan h, hpan]
    simp

/-- C7 as amended: for every parallelism `p ≥ 1` that the runtime can serve
(`p ≤ limit`), `Run()` with no URL returns the empty mapping without waiting for any
Result. Along every schedule no fetch completes and nothing is received from `results`;
`Run` is never blocked before its return; it has returned as soon as it has executed two
statements of its own (`close(jobs)` and the `default` branch), and the mapping is
empty. -/
theorem Run_empty_returns_empty (md5Sum : List Byte → Sum16)
    (net : Nat → String → GetResult) (limit : Nat) (d : Digester) (hp : 1 ≤ d.parallel)
    (hl : d.parallel ≤ limit) (evs : List Event) (s : RunState)
    (h : Run.exec md5Sum net d [] (Run.init limit d) evs = some s) :
    s.output = GoMap.empty ∧ s.received = [] ∧
    (∀ w, Event.recv w ∉ evs ∧ Event.fetch w ∉ evs) ∧
    (s.phase ≠ .returned → (Run.step md5Sum net d [] s .main).isSome = true) ∧
    (evs.count .main = 2 ↔ s.phase = .returned) ∧ evs.count .main ≤ 2 ∧
    Run.exec md5Sum net d [] (Run.init limit d) [.main, .main]
      = some { Run.init limit d with closed := true, phase := .returned } := by
  have hinit := Idle_init limit d (by omega) hl
  obtain ⟨hidle, hnot, hcount⟩ := Idle_exec md5Sum net d evs _ s hinit h
  have hp2 : ¬ (d.parallel < 0 ∨ (limit : Int) < d.parallel) := by omega
  have hleft : mainsLeft (Run.init limit d).phase = 2 := by
    simp only [Run.init, hp2, if_false, mainsLeft]
  rw [hleft] at hcount
  refine ⟨hidle.2.2.1, hidle.2.1, hnot,
    Idle_main_enabled md5Sum net d s hidle, ⟨fun hc => ?_, fun hr => ?_⟩, by omega, ?_⟩
  · rcases hidle.2.2.2.2 with hph | hph | hph
    · rw [hph] at hcount; simp [mainsLeft] at hcount; omega
    · rw [hph] at hcount; simp [mainsLeft] at hcount; omega
    · exact hph
  · rw [hr] at hcount
    simpa [mainsLeft] using hcount
  · simp only [Run.init, hp2, if_false]
    simp [Run.exec, Run.step, GoMap.empty, GoMap.len, WorkerState.isSending]

/-- Witness of C7 as amended: four workers, no URL, and the two statements of `Run`. -/
theorem Run_empty_returns_empty_witness :
    Run.exec (fun _ _ => 0) (fun _ _ => .error "boom") (New 4) [] (Run.init limit64 (New 4))
      [.main, .main]
    = some { jobs := [], closed := true,
             workers := [.ranging, .ranging, .ranging, .ranging],
             phase := .returned, output := GoMap.empty, received := [] } :=
  (Run_empty_returns_empty (fun _ _ => 0) (fun _ _ => .error "boom") limit64 (New 4)
    (by decide) (by decide) [] (Run.init limit64 (New 4)) rfl).2.2.2.2.2.2

/-! ## Run: the collecting loop -/

/-- Counterexample to C8, for `New(1).Run("a")`. After the job has been sent and the
channel closed, no Result has been received yet, and the next step of the aggregator is
the `default` branch, which consumes nothing and leaves the state as it is: the loop
polls. And at the step that receives the only Result the loop does not stop: `Run` is
still collecting after it. -/
theorem Run_collect_loop_polls :
    Run.exec (fun _ _ => 0) (fun _ _ => .error "boom") (New 1) ["a"] (Run.init limit64 (New 1))
        [.main, .main]
      = some { jobs := [⟨0, "a"⟩], closed := true, workers := [.ranging], phase := .collecting,
               output := GoMap.empty, received := [] } ∧
    ([] : List result).length < ["a"].length ∧
    Run.step (fun _ _ => 0) (fun _ _ => .error "boom") (New 1) ["a"]
        { jobs := [⟨0, "a"⟩], closed := true, workers := [.ranging], phase := .collecting,
          output := GoMap.empty, received := [] } .main
      = some { jobs := [⟨0, "a"⟩], closed := true, workers := [.ranging], phase := .collecting,
               output := GoMap.empty, received := [] } ∧
    Run.exec (fun _ _ => 0) (fun _ _ => .error "boom") (New 1) ["a"] (Run.init limit64 (New 1))
        [.main, .main, .take 0, .fetch 0, .recv 0]
      = some { jobs := [], closed := true, workers := [.ranging], phase := .collecting,
               output := ⟨[("a", "failed: boom")]⟩, received := [⟨0, "", some "boom"⟩] } ∧
    ([⟨0, "", some "boom"⟩] : List result).length = ["a"].length := by
  decide

/-- C8 as amended: the collecting loop of `Run` is a `select` with a `default` branch.
In every reachable collecting state, for every input: when a worker is ready to deliver
a Result, the aggregator cannot take the `default` branch, and its receive merges that
Result, counts it and stays in the loop; when no worker is ready, the `default` branch
can be taken and consumes nothing: it changes neither the Results received nor the
output, the workers or the channel; and the count of received Results never exceeds the
number of jobs. For pairwise distinct URLs the `default` branch moreover leaves the
whole state unchanged while fewer Results than jobs have been received, and returns once
their count equals the number of jobs. -/
theorem Run_collect_loop_step (md5Sum : List Byte → Sum16)
    (net : Nat → String → GetResult) (limit : Nat) (d : Digester) (URLs : List String)
    (evs : List Event) (s : RunState)
    (h : Run.exec md5Sum net d URLs (Run.init limit d) evs = some s)
    (hph : s.phase = .collecting) :
    (∀ (w : Nat) (r : result), s.workers[w]? = some (WorkerState.sending r) →
      Run.step md5Sum net d URLs s .main = none ∧
      ∃ url, URLs[r.idx]? = some url ∧
        Run.step md5Sum net d URLs s (.recv w) = some { s with
          workers := s.workers.set w .ranging
          output := s.output.set url (render r)
          received := s.received ++ [r] }) ∧
    ((∀ (w : Nat) (r : result), s.workers[w]? ≠ some (WorkerState.sending r)) →
      (∃ s2, Run.step md5Sum net d URLs s .main = some s2 ∧ s2.received = s.received ∧
        s2.output = s.output ∧ s2.workers = s.workers ∧ s2.jobs = s.jobs ∧
        s2.closed = s.closed ∧ (s2.phase = .collecting ∨ s2.phase = .returned)) ∧
      (URLs.Nodup →
        (s.received.length < URLs.length → Run.step md5Sum net d URLs s .main = some s) ∧
        (s.received.length = URLs.length →
          Run.step md5Sum net d URLs s .main = some { s with phase := .returned }))) ∧
    s.received.length ≤ URLs.length := by
  rcases reach_cases md5Sum net d URLs limit evs s h with hp | hinv
  · rw [hp] at hph
    exact absurd hph (by simp)
  · refine ⟨fun w r hw => ⟨?_, ?_⟩, fun hno => ?_, received_length_le md5Sum net d URLs s hinv⟩
    · have hany : s.workers.any WorkerState.isSending = true :=
        List.any_eq_true.mpr ⟨_, List.getElem?_mem hw, rfl⟩
      simp [Run.step, hph, hany]
    · obtain ⟨url, hurl, -⟩ : ResultOk md5Sum net URLs r :=
        hinv.workersOk _ (List.getElem?_mem hw)
      exact ⟨url, hurl, by simp [Run.step, hph, hw, merge_eq, hurl]⟩
    · have hany : s.workers.any WorkerState.isSending = false := by
        rw [any_isSending_eq_false]
        intro r hr
        obtain ⟨w, hw⟩ := List.getElem?_of_mem hr
        exact hno w r hw
      constructor
      · by_cases hl : s.output.len = URLs.length
        · exact ⟨{ s with phase := .returned }, by simp [Run.step, hph, hany, hl],
            rfl, rfl, rfl, rfl, rfl, Or.inr rfl⟩
        · exact ⟨s, by simp [Run.step, hph, hany, hl], rfl, rfl, rfl, rfl, rfl, Or.inl hph⟩
      · intro hnd
        have hlen := output_len_eq_received md5Sum net d URLs s hinv hnd
        constructor
        · intro hlt
          have hne : ¬ s.output.len = URLs.length := by omega
          simp [Run.step, hph, hany, hne]
        · intro heq
          have he : s.output.len = URLs.length := by omega
          simp [Run.step, hph, hany, he]

/-- Witness of C8 as amended: `Run("u", "u")` with one worker, first with the worker
ready to deliver the Result of job 0, where the `default` branch cannot be taken; then
`Run("a")` after its only Result has been received, where the `default` branch
returns. -/
theorem Run_collect_loop_step_witness :
    Run.step (fun _ _ => 0) (fun _ _ => .error "boom") (New 1) ["u", "u"]
      { jobs := [⟨1, "u"⟩], closed := true, workers := [.sending ⟨0, "", some "boom"⟩],
        phase := .collecting, output := GoMap.empty, received := [] } .main = none ∧
    Run.step (fun _ _ => 0) (fun _ _ => .error "boom") (New 1) ["a"]
      { jobs := [], closed := true, workers := [.ranging], phase := .collecting,
        output := ⟨[("a", "failed: boom")]⟩, received := [⟨0, "", some "boom"⟩] } .main
      = some { jobs := [], closed := true, workers := [.ranging], phase := .returned,
               output := ⟨[("a", "failed: boom")]⟩, received := [⟨0, "", some "boom"⟩] } :=
  ⟨((Run_collect_loop_step (fun _ _ => 0) (fun _ _ => .error "boom") limit64 (New 1)
      ["u", "u"] [.main, .take 0, .main, .fetch 0, .main]
      { jobs := [⟨1, "u"⟩], closed := true, workers := [.sending ⟨0, "", some "boom"⟩],
        phase := .collecting, output := GoMap.empty, received := [] }
      (by decide) rfl).1 0 ⟨0, "", some "boom"⟩ rfl).1,
   (((Run_collect_loop_step (fun _ _ => 0) (fun _ _ => .error "boom") limit64 (New 1)
      ["a"] [.main, .main, .take 0, .fetch 0, .recv 0]
      { jobs := [], closed := true, workers := [.ranging], phase := .collecting,
        output := ⟨[("a", "failed: boom")]⟩, received := [⟨0, "", some "boom"⟩] }
      (by decide) rfl).2.1 (by intro w r; cases w <;> simp)).2 (by decide)).2 rfl⟩

end Digest
